import Mathlib

/-
Verification of the resource-aware admission controller in
github.com/spjmurray/testing (src/testing.go).

The Go program keeps a global pool `available` (total capacity),
`unallocated` (free capacity), and `queue` (pending tests keyed by test
name).  A single coordinator goroutine consumes one event at a time from
the `enqueue` and `release` channels and, after each event, runs an
admission pass over the queue, granting every pending item whose demand
fits the current unallocated capacity.

The embedding below is shallow: Go maps become association lists with
unique keys and first-match lookup (Go's zero-value read `m[k]` becomes
`get0`), channels become events processed one at a time, and the
unspecified Go map iteration order of the admission pass becomes an
explicit `order : List String` parameter.  Goroutine wake channels are
identified by a numeric token; closing a channel is recorded in a `woken`
list.  A ghost field `held` records the demands of granted, not yet
released, requests so that the capacity invariant can be stated.
-/

namespace SmTest

/-- Modelled from the spec: the declaration of the `ResourceSet` type is not
among the given sources (only its uses in `testing.go`); the spec defines it
as a mapping from resource type (a string) to an integer quantity.  It is
embedded as an association list with Go map semantics: first-match lookup,
and the Go zero value `0` for absent keys (`get0`).  Quantities are signed
integers as in Go; the spec's non-negativity appears as hypotheses where a
claim needs it. -/
abbrev ResourceSet := List (String × Int)

/-- First-match lookup, mirroring Go's `v, ok := m[k]`. -/
def findRS : ResourceSet → String → Option Int
  | [], _ => none
  | p :: rest, k => if p.1 = k then some p.2 else findRS rest k

/-- Go's zero-value read `m[k]`: the stored value, or `0` when absent. -/
def get0 (m : ResourceSet) (k : String) : Int :=
  (findRS m k).getD 0

/-- Go's `m[k] = v`: replace the entry when the key is present, else append. -/
def setRS : ResourceSet → String → Int → ResourceSet
  | [], k, v => [(k, v)]
  | p :: rest, k, v => if p.1 = k then (k, v) :: rest else p :: setRS rest k v

/-- Go loop `for k, v := range d { u[k] += v }` (the release handler,
testing.go lines 111-113). -/
def addRS (u d : ResourceSet) : ResourceSet :=
  d.foldl (fun u p => setRS u p.1 (get0 u p.1 + p.2)) u

/-- Go loop `for k, v := range d { u[k] -= v }` (the grant commit,
testing.go lines 131-133). -/
def subRS (u d : ResourceSet) : ResourceSet :=
  d.foldl (fun u p => setRS u p.1 (get0 u p.1 - p.2)) u

/-- The admission fit check of testing.go lines 119-126: `ok` stays true
iff no required entry has `unallocated[k] < v`, reading absent keys as 0. -/
def fits (u d : ResourceSet) : Bool :=
  d.all (fun p => decide (p.2 ≤ get0 u p.1))

/-- Total demand an association list places on resource `k` (a Go map has
each key at most once, so on images of Go maps this is the stored value). -/
def dsum (d : ResourceSet) (k : String) : Int :=
  (d.map (fun p => if p.1 = k then p.2 else 0)).sum

/-- Keys of an association list. -/
def keysRS (m : ResourceSet) : List String :=
  m.map Prod.fst

/-- The Go `queueItem` struct: the one-shot wake channel (identified here by
a numeric token; closing it is recorded in `CoordState.woken`) and the
required resources. -/
structure queueItem where
  wait : Nat
  required : ResourceSet
  deriving DecidableEq, Repr

/-- The two channels consumed by the coordinator loop: `enqueue` carries a
`transaction` (test name plus queue item), `release` carries the resources
given back by a finishing test. -/
inductive Event where
  | enqueue (name : String) (item : queueItem)
  | release (allocated : ResourceSet)
  deriving DecidableEq, Repr

/-- The coordinator's state: the global variables of testing.go.
`available` is the total capacity set by `Start`, `unallocated` the free
capacity, `queue` the pending tests keyed by name.  `woken` records the
wake tokens whose channels have been closed, newest first.  `held` is ghost
state, not present in the Go code: the demands of granted, not yet
released, requests, used to state the capacity invariant. -/
structure CoordState where
  available : ResourceSet
  unallocated : ResourceSet
  queue : List (String × queueItem)
  woken : List Nat
  held : List ResourceSet
  deriving DecidableEq, Repr

/-- Go map lookup on the wait queue. -/
def lookupQ : List (String × queueItem) → String → Option queueItem
  | [], _ => none
  | p :: rest, n => if p.1 = n then some p.2 else lookupQ rest n

/-- Go `queue[name] = item`: replace an existing entry for the name, else
append. -/
def insertQ : List (String × queueItem) → String → queueItem → List (String × queueItem)
  | [], n, it => [(n, it)]
  | p :: rest, n, it => if p.1 = n then (n, it) :: rest else p :: insertQ rest n it

/-- Go `delete(queue, name)`. -/
def removeQ : List (String × queueItem) → String → List (String × queueItem)
  | [], _ => []
  | p :: rest, n => if p.1 = n then removeQ rest n else p :: removeQ rest n

/-- Remove one occurrence of a granted demand from the ghost `held` list
(a release event hands back the very `required` set that was granted). -/
def removeHeld : List ResourceSet → ResourceSet → List ResourceSet
  | [], _ => []
  | d :: rest, a => if d = a then rest else d :: removeHeld rest a

/-- The event handler of the coordinator loop (testing.go lines 107-114):
an enqueue transaction stores its item under its name, a release adds the
returned resources back to `unallocated`.  The ghost `held` list drops one
occurrence of the released set. -/
def handleEvent (s : CoordState) : Event → CoordState
  | .enqueue n it => { s with queue := insertQ s.queue n it }
  | .release a =>
      { s with unallocated := addRS s.unallocated a,
               held := removeHeld s.held a }

/-- One iteration of the admission pass (testing.go lines 117-138) for the
queue entry named `n`: if the entry is still present and all its required
resources fit the current `unallocated` (absent keys read as 0), subtract
the demand, delete the entry and close its wake channel; otherwise leave
the state unchanged. -/
def passStep (s : CoordState) (n : String) : CoordState :=
  match lookupQ s.queue n with
  | none => s
  | some it =>
      if fits s.unallocated it.required then
        { s with unallocated := subRS s.unallocated it.required,
                 queue := removeQ s.queue n,
                 woken := it.wait :: s.woken,
                 held := it.required :: s.held }
      else s

/-- The full admission pass: iterate the queue in the (unspecified, hence
explicitly supplied) Go map order `order`.  Names already granted or not in
the queue are skipped by `passStep`, exactly as Go's range-with-delete
produces each live key at most once. -/
def admissionPass (s : CoordState) (order : List String) : CoordState :=
  order.foldl passStep s

/-- One full cycle of the coordinator loop: receive one event, then run the
admission pass. -/
def stepEvent (s : CoordState) (e : Event) (order : List String) : CoordState :=
  admissionPass (handleEvent s e) order

/-- Process a list of events, each with the scan order its admission pass
happens to use. -/
def run (s : CoordState) (tr : List (Event × List String)) : CoordState :=
  tr.foldl (fun s p => stepEvent s p.1 p.2) s

/-- The state set up by `Start` (testing.go lines 92-100): `available`
becomes the given resources and `unallocated` is built by copying every
entry of `available` into an initially empty map. -/
def startState (resources : ResourceSet) : CoordState :=
  { available := resources,
    unallocated := resources.foldl (fun u p => setRS u p.1 p.2) [],
    queue := [],
    woken := [],
    held := [] }

/-- The feasibility check of `Parallel` (testing.go lines 148-153): the
test is skipped when some required resource type is absent from `available`
or demands more than the total. -/
def parallelSkip (avail required : ResourceSet) : Bool :=
  required.any (fun p =>
    match findRS avail p.1 with
    | none => true
    | some a => decide (a < p.2))

/-- The pure content of `Parallel` (testing.go lines 147-186): `t.Skipf`
stops the test, so a skipped test sends nothing; otherwise an enqueue
transaction carrying the test name, a fresh wake channel and the demand is
sent to the coordinator. -/
def Parallel (avail : ResourceSet) (name : String) (wait : Nat)
    (required : ResourceSet) : Option Event :=
  if parallelSkip avail required then none
  else some (.enqueue name ⟨wait, required⟩)

/-- Per-type sum of the demands held by granted, unreleased requests. -/
def heldSum (hs : List ResourceSet) (k : String) : Int :=
  (hs.map (fun d => dsum d k)).sum

/-- Release events are valid when they return a currently held grant;
enqueue events are always valid.  This is the discipline the Go API imposes
on callers: the closure returned by `Parallel` releases exactly the granted
demand, once. -/
def validRelease (s : CoordState) : Event → Bool
  | .enqueue _ _ => true
  | .release a => decide (a ∈ s.held)

/-- A trace is valid when every release event returns a grant held at the
moment the event is processed. -/
def validTrace : CoordState → List (Event × List String) → Bool
  | _, [] => true
  | s, (e, o) :: tr => validRelease s e && validTrace (stepEvent s e o) tr

/-- The capacity invariant: for every resource type, free capacity plus the
capacity held by granted, unreleased requests equals the total capacity. -/
def Inv (s : CoordState) : Prop :=
  ∀ k, get0 s.unallocated k + heldSum s.held k = get0 s.available k

/-- Keys (test names) of the wait queue. -/
def keysQ (q : List (String × queueItem)) : List String :=
  q.map Prod.fst

/-- Wake tokens of the wait queue. -/
def tokensQ (q : List (String × queueItem)) : List Nat :=
  q.map (fun p => p.2.wait)

/-- Every queued demand is the image of a Go map (unique keys) with
non-negative quantities. -/
def demandsOK (q : List (String × queueItem)) : Bool :=
  q.all (fun p =>
    decide ((keysRS p.2.required).Nodup)
      && p.2.required.all (fun e => decide (0 ≤ e.2)))

/-- No enqueue event of the trace carries the wake token `t` (wake
channels are created freshly per request, so a token of an already
replaced request never reappears). -/
def trAvoids (t : Nat) (tr : List (Event × List String)) : Bool :=
  tr.all (fun pr =>
    match pr.1 with
    | .enqueue _ jt => decide (jt.wait ≠ t)
    | .release _ => true)

/-- Concrete scenario for the multi-grant admission pass: a holder of
`{cpu:16}` is about to release while `Z` (demanding `{cpu:32}`, which can
never fit now) and the two small waiters `B` and `C` are pending. -/
def multiGrantState : CoordState :=
  { available := [("cpu", 16)],
    unallocated := [("cpu", 0)],
    queue := [("Z", ⟨9, [("cpu", 32)]⟩),
              ("B", ⟨2, [("cpu", 8)]⟩),
              ("C", ⟨3, [("cpu", 8)]⟩)],
    woken := [],
    held := [[("cpu", 16)]] }

/-! ### Basic lemmas about the map operations -/

theorem get0_setRS (u : ResourceSet) (k : String) (v : Int) (j : String) :
    get0 (setRS u k v) j = if k = j then v else get0 u j := by
  induction u with
  | nil =>
      simp only [setRS, get0, findRS]
      split <;> simp [findRS, *]
  | cons p rest ih =>
      simp only [setRS]
      by_cases hp : p.1 = k
      · subst hp
        simp only [if_pos rfl, get0, findRS]
        by_cases hj : p.1 = j <;> simp [hj]
      · simp only [if_neg hp, get0, findRS]
        by_cases hj : p.1 = j
        · subst hj
          have : ¬ k = p.1 := fun h => hp h.symm
          simp [this]
        · simpa [hj, get0] using ih

theorem dsum_nil (k : String) : dsum [] k = 0 := rfl

theorem dsum_cons (p : String × Int) (rest : ResourceSet) (k : String) :
    dsum (p :: rest) k = (if p.1 = k then p.2 else 0) + dsum rest k := by
  simp [dsum]

theorem get0_subRS (u d : ResourceSet) (k : String) :
    get0 (subRS u d) k = get0 u k - dsum d k := by
  induction d generalizing u with
  | nil => simp [subRS, dsum_nil]
  | cons p rest ih =>
      have step : subRS u (p :: rest) = subRS (setRS u p.1 (get0 u p.1 - p.2)) rest := by
        simp [subRS]
      rw [step, ih, get0_setRS, dsum_cons]
      by_cases hp : p.1 = k
      · simp [hp]; ring
      · simp [hp]

theorem get0_addRS (u d : ResourceSet) (k : String) :
    get0 (addRS u d) k = get0 u k + dsum d k := by
  induction d generalizing u with
  | nil => simp [addRS, dsum_nil]
  | cons p rest ih =>
      have step : addRS u (p :: rest) = addRS (setRS u p.1 (get0 u p.1 + p.2)) rest := by
        simp [addRS]
      rw [step, ih, get0_setRS, dsum_cons]
      by_cases hp : p.1 = k
      · simp [hp]; ring
      · simp [hp]

theorem fits_iff (u d : ResourceSet) :
    fits u d = true ↔ ∀ p ∈ d, p.2 ≤ get0 u p.1 := by
  simp [fits]

/-! ### The capacity invariant -/

theorem heldSum_nil (k : String) : heldSum [] k = 0 := rfl

theorem heldSum_cons (d : ResourceSet) (hs : List ResourceSet) (k : String) :
    heldSum (d :: hs) k = dsum d k + heldSum hs k := by
  simp [heldSum]

theorem heldSum_removeHeld (hs : List ResourceSet) (a : ResourceSet) (k : String)
    (h : a ∈ hs) :
    heldSum (removeHeld hs a) k = heldSum hs k - dsum a k := by
  induction hs with
  | nil => cases h
  | cons d rest ih =>
      by_cases hd : d = a
      · subst hd
        simp [removeHeld, heldSum_cons]
      · rcases List.mem_cons.mp h with h1 | h2
        · exact absurd h1.symm hd
        · simp only [removeHeld, if_neg hd, heldSum_cons, ih h2]
          ring

theorem passStep_available (s : CoordState) (n : String) :
    (passStep s n).available = s.available := by
  unfold passStep
  cases lookupQ s.queue n with
  | none => rfl
  | some it => by_cases h : fits s.unallocated it.required <;> simp [h]

theorem admissionPass_available (s : CoordState) (order : List String) :
    (admissionPass s order).available = s.available := by
  induction order generalizing s with
  | nil => rfl
  | cons n rest ih =>
      simp only [admissionPass, List.foldl_cons]
      rw [show List.foldl passStep (passStep s n) rest = admissionPass (passStep s n) rest from rfl]
      rw [ih, passStep_available]

theorem handleEvent_available (s : CoordState) (e : Event) :
    (handleEvent s e).available = s.available := by
  cases e <;> rfl

theorem stepEvent_available (s : CoordState) (e : Event) (order : List String) :
    (stepEvent s e order).available = s.available := by
  unfold stepEvent
  rw [admissionPass_available, handleEvent_available]

theorem run_available (s : CoordState) (tr : List (Event × List String)) :
    (run s tr).available = s.available := by
  induction tr generalizing s with
  | nil => rfl
  | cons p rest ih =>
      simp only [run, List.foldl_cons]
      rw [show List.foldl (fun s p => stepEvent s p.1 p.2) (stepEvent s p.1 p.2) rest
            = run (stepEvent s p.1 p.2) rest from rfl]
      rw [ih, stepEvent_available]

theorem passStep_Inv (s : CoordState) (n : String) (h : Inv s) :
    Inv (passStep s n) := by
  unfold passStep
  cases lookupQ s.queue n with
  | none => exact h
  | some it =>
      by_cases hf : fits s.unallocated it.required
      · simp only [hf, if_pos]
        intro k
        simp only [get0_subRS, heldSum_cons]
        have := h k
        omega
      · simpa [hf] using h

theorem admissionPass_Inv (s : CoordState) (order : List String) (h : Inv s) :
    Inv (admissionPass s order) := by
  induction order generalizing s with
  | nil => exact h
  | cons n rest ih =>
      exact ih (passStep s n) (passStep_Inv s n h)

theorem handleEvent_Inv (s : CoordState) (e : Event)
    (h : Inv s) (hv : validRelease s e = true) : Inv (handleEvent s e) := by
  cases e with
  | enqueue n it => exact h
  | release a =>
      have ha : a ∈ s.held := by simpa [validRelease] using hv
      intro k
      simp only [handleEvent, get0_addRS, heldSum_removeHeld s.held a k ha]
      have := h k
      omega

theorem stepEvent_Inv (s : CoordState) (e : Event) (order : List String)
    (h : Inv s) (hv : validRelease s e = true) : Inv (stepEvent s e order) :=
  admissionPass_Inv _ order (handleEvent_Inv s e h hv)

theorem run_Inv (s : CoordState) (tr : List (Event × List String))
    (h : Inv s) (hv : validTrace s tr = true) : Inv (run s tr) := by
  induction tr generalizing s with
  | nil => exact h
  | cons p rest ih =>
      simp only [validTrace, Bool.and_eq_true] at hv
      exact ih (stepEvent s p.1 p.2) (stepEvent_Inv s p.1 p.2 h hv.1) hv.2

theorem get0_cons (p : String × Int) (rest : ResourceSet) (k : String) :
    get0 (p :: rest) k = if p.1 = k then p.2 else get0 rest k := by
  simp only [get0, findRS]
  by_cases h : p.1 = k <;> simp [h]

theorem mem_keysRS_cons (p : String × Int) (rest : ResourceSet) (k : String) :
    k ∈ keysRS (p :: rest) ↔ p.1 = k ∨ k ∈ keysRS rest := by
  simp only [keysRS, List.map_cons, List.mem_cons]
  constructor
  · rintro (h | h)
    · exact Or.inl h.symm
    · exact Or.inr h
  · rintro (h | h)
    · exact Or.inl h.symm
    · exact Or.inr h

theorem findRS_eq_none (m : ResourceSet) (k : String) (h : k ∉ keysRS m) :
    findRS m k = none := by
  induction m with
  | nil => rfl
  | cons p rest ih =>
      have hpk : ¬ p.1 = k := fun hp => h ((mem_keysRS_cons p rest k).mpr (Or.inl hp))
      have hr : k ∉ keysRS rest := fun hr => h ((mem_keysRS_cons p rest k).mpr (Or.inr hr))
      simp only [findRS, if_neg hpk]
      exact ih hr

theorem get0_copy (d : ResourceSet) (k : String) :
    ∀ u : ResourceSet, (keysRS d).Nodup →
      get0 (d.foldl (fun u p => setRS u p.1 p.2) u) k
        = if k ∈ keysRS d then get0 d k else get0 u k := by
  induction d with
  | nil => intro u _; simp [keysRS]
  | cons p rest ih =>
      intro u hnd
      simp only [keysRS, List.map_cons] at hnd
      obtain ⟨hp, hnd'⟩ := List.nodup_cons.mp hnd
      simp only [List.foldl_cons]
      rw [ih (setRS u p.1 p.2) hnd']
      by_cases hk : k ∈ keysRS rest
      · have hpk : ¬ p.1 = k := by
          intro hkp
          exact hp (by simpa [keysRS, hkp] using hk)
        rw [if_pos hk, if_pos ((mem_keysRS_cons p rest k).mpr (Or.inr hk)),
          get0_cons, if_neg hpk]
      · rw [if_neg hk, get0_setRS]
        by_cases hpk : p.1 = k
        · rw [if_pos hpk, if_pos ((mem_keysRS_cons p rest k).mpr (Or.inl hpk)),
            get0_cons, if_pos hpk]
        · have hnk : k ∉ keysRS (p :: rest) := by
            intro hm
            rcases (mem_keysRS_cons p rest k).mp hm with h | h
            · exact hpk h
            · exact hk h
          rw [if_neg hpk, if_neg hnk]

theorem startState_Inv (resources : ResourceSet)
    (h : (keysRS resources).Nodup) : Inv (startState resources) := by
  intro k
  simp only [startState, heldSum_nil, add_zero]
  rw [get0_copy resources k [] h]
  by_cases hk : k ∈ keysRS resources
  · simp [hk]
  · rw [if_neg hk]
    simp [get0, findRS, findRS_eq_none resources k hk]

/-! ### Claim theorems -/

/-- C1: for every sequence of enqueue and release events processed by the
coordinator loop starting from `Start(total)`, where each release event
carries the demand of one previously granted, not yet released request,
after every event-plus-admission-pass cycle and for every resource type,
`unallocated[type]` plus the sum of `demand[type]` over all currently held
grants equals `total[type]`.  (The Go total is a map, hence the nodup-keys
hypothesis.) -/
theorem capacity_invariant_run (resources : ResourceSet)
    (hnd : (keysRS resources).Nodup)
    (tr : List (Event × List String))
    (hv : validTrace (startState resources) tr = true) :
    ∀ k, get0 (run (startState resources) tr).unallocated k
          + heldSum (run (startState resources) tr).held k
          = get0 resources k := by
  intro k
  have h := run_Inv (startState resources) tr (startState_Inv resources hnd) hv k
  have h2 : (startState resources).available = resources := rfl
  rw [run_available, h2] at h
  exact h

theorem capacity_invariant_run_witness :
    get0 (run (startState [("cpu", 16)])
        [(Event.enqueue "A" ⟨1, [("cpu", 8)]⟩, ["A"]),
         (Event.release [("cpu", 8)], [])]).unallocated "cpu"
      + heldSum (run (startState [("cpu", 16)])
        [(Event.enqueue "A" ⟨1, [("cpu", 8)]⟩, ["A"]),
         (Event.release [("cpu", 8)], [])]).held "cpu"
      = get0 [("cpu", 16)] "cpu" :=
  capacity_invariant_run [("cpu", 16)] (by decide)
    [(Event.enqueue "A" ⟨1, [("cpu", 8)]⟩, ["A"]),
     (Event.release [("cpu", 8)], [])] (by decide) "cpu"

/-- C7: subtracting a granted demand from `unallocated` and later adding it
back on release is the identity on every resource type, so any sequence of
matched (grant, release) pairs started from `unallocated = total` ends with
`unallocated = total` (per type). -/
theorem grant_release_roundtrip :
    (∀ (u d : ResourceSet) (k : String), get0 (addRS (subRS u d) d) k = get0 u k)
    ∧ ∀ (ds : List ResourceSet) (total : ResourceSet) (k : String),
        get0 (ds.foldl (fun u d => addRS (subRS u d) d) total) k = get0 total k := by
  constructor
  · intro u d k
    rw [get0_addRS, get0_subRS]
    ring
  · intro ds
    induction ds with
    | nil => intro total k; rfl
    | cons d rest ih =>
        intro total k
        simp only [List.foldl_cons]
        rw [ih, get0_addRS, get0_subRS]
        ring

/-- C10: after `Start(total)` returns, the total-capacity map `available`
is never mutated by any subsequent event, admission pass, or full cycle;
only `unallocated`, the queue (and the wake/ghost records) change.
(`Parallel` is a pure function of `available` in this embedding and mutates
nothing.) -/
theorem available_never_mutated (s : CoordState) (tr : List (Event × List String))
    (e : Event) (order : List String) (n : String) (it : queueItem)
    (a : ResourceSet) :
    (run s tr).available = s.available
    ∧ (handleEvent s e).available = s.available
    ∧ (admissionPass s order).available = s.available
    ∧ (stepEvent s e order).available = s.available
    ∧ (handleEvent s (Event.enqueue n it)).unallocated = s.unallocated
    ∧ (handleEvent s (Event.release a)).queue = s.queue :=
  ⟨run_available s tr, handleEvent_available s e,
   admissionPass_available s order, stepEvent_available s e order, rfl, rfl⟩

theorem parallelSkip_iff (avail required : ResourceSet) :
    parallelSkip avail required = true
      ↔ ∃ p ∈ required,
          findRS avail p.1 = none ∨ ∃ a, findRS avail p.1 = some a ∧ a < p.2 := by
  simp only [parallelSkip, List.any_eq_true]
  constructor
  · rintro ⟨p, hp, hm⟩
    refine ⟨p, hp, ?_⟩
    cases h : findRS avail p.1 with
    | none => exact Or.inl rfl
    | some a =>
        rw [h] at hm
        exact Or.inr ⟨a, rfl, by simpa using hm⟩
  · rintro ⟨p, hp, hm⟩
    refine ⟨p, hp, ?_⟩
    rcases hm with h | ⟨a, ha, hlt⟩
    · rw [h]
    · rw [ha]
      simpa using hlt

/-- C3: `Parallel` skips the test (sending no enqueue event) exactly when
some resource type of the demand is absent from the total capacity or
demands more than the total; otherwise it always sends the enqueue event.
The decision is a function of the immutable total only — `unallocated`
does not occur in it — so a demand that fits the total is enqueued even
when it exceeds the currently unallocated capacity. -/
theorem parallel_skip_iff_infeasible (avail required : ResourceSet)
    (name : String) (wait : Nat) :
    (Parallel avail name wait required = none
      ↔ ∃ p ∈ required,
          findRS avail p.1 = none ∨ ∃ a, findRS avail p.1 = some a ∧ a < p.2)
    ∧ (Parallel avail name wait required = some (Event.enqueue name ⟨wait, required⟩)
      ↔ ¬ ∃ p ∈ required,
          findRS avail p.1 = none ∨ ∃ a, findRS avail p.1 = some a ∧ a < p.2) := by
  constructor
  · rw [← parallelSkip_iff]
    unfold Parallel
    by_cases h : parallelSkip avail required = true <;> simp [h]
  · rw [← parallelSkip_iff]
    unfold Parallel
    by_cases h : parallelSkip avail required = true <;> simp [h]

/-- C2 counterexample: the admission pass grants a request whose demand
names a resource type that does not exist as a key in `unallocated` (a
zero demand on an absent type), because the Go fit check reads absent keys
as 0 instead of requiring the key to exist. -/
theorem admission_grants_without_key_existence :
    (admissionPass
        { available := [("cpu", 16)], unallocated := [("cpu", 16)],
          queue := [("T", ⟨7, [("gpu", 0)]⟩)], woken := [], held := [] }
        ["T"]).woken = [7]
    ∧ (admissionPass
        { available := [("cpu", 16)], unallocated := [("cpu", 16)],
          queue := [("T", ⟨7, [("gpu", 0)]⟩)], woken := [], held := [] }
        ["T"]).queue = []
    ∧ findRS [("cpu", 16)] "gpu" = none := by decide

/-- C2 (amended): a pending request considered by the admission pass is
granted iff every resource type in its demand has unallocated quantity at
least the demanded amount, where an absent type is read as quantity 0 (Go
zero-value indexing) rather than being required to exist as a key.  When
the demand does not fit, the request stays pending and the state —
`unallocated` in particular — is completely unchanged (no partial
reservation); on grant, `demand[type]` is subtracted from `unallocated`
for every type present in the demand. -/
theorem admission_step_spec (s : CoordState) (n : String) (it : queueItem)
    (h : lookupQ s.queue n = some it) :
    (fits s.unallocated it.required = true
      ↔ ∀ p ∈ it.required, p.2 ≤ get0 s.unallocated p.1)
    ∧ (fits s.unallocated it.required = true →
        passStep s n
          = { s with unallocated := subRS s.unallocated it.required,
                     queue := removeQ s.queue n,
                     woken := it.wait :: s.woken,
                     held := it.required :: s.held }
        ∧ ∀ k, get0 (passStep s n).unallocated k
            = get0 s.unallocated k - dsum it.required k)
    ∧ (fits s.unallocated it.required = false → passStep s n = s) := by
  refine ⟨fits_iff _ _, ?_, ?_⟩
  · intro hf
    constructor
    · unfold passStep
      rw [h]
      simp [hf]
    · intro k
      unfold passStep
      rw [h]
      simp [hf, get0_subRS]
  · intro hf
    unfold passStep
    rw [h]
    simp [hf]

theorem admission_step_spec_witness :
    passStep
        { available := [("cpu", 16)], unallocated := [("cpu", 16)],
          queue := [("T", ⟨5, [("cpu", 4)]⟩)], woken := [], held := [] } "T"
      = { available := [("cpu", 16)],
          unallocated := subRS [("cpu", 16)] [("cpu", 4)],
          queue := [], woken := [5], held := [[("cpu", 4)]] } :=
  ((admission_step_spec
      { available := [("cpu", 16)], unallocated := [("cpu", 16)],
        queue := [("T", ⟨5, [("cpu", 4)]⟩)], woken := [], held := [] }
      "T" ⟨5, [("cpu", 4)]⟩ (by decide)).2.1 (by decide)).1

/-- C4: with total `{cpu:16}` and two pending requests each demanding
`{cpu:16}`, the admission pass grants exactly one of them (whichever the
scan order reaches first) and leaves the other pending; after the
coordinator processes a release event of `{cpu:16}` from the holder, the
immediately following admission pass grants the remaining request, with no
enqueue event in between. -/
theorem release_unblocks_waiter :
    (admissionPass
        { available := [("cpu", 16)], unallocated := [("cpu", 16)],
          queue := [("A", ⟨1, [("cpu", 16)]⟩), ("B", ⟨2, [("cpu", 16)]⟩)],
          woken := [], held := [] } ["A", "B"]).woken = [1]
    ∧ (admissionPass
        { available := [("cpu", 16)], unallocated := [("cpu", 16)],
          queue := [("A", ⟨1, [("cpu", 16)]⟩), ("B", ⟨2, [("cpu", 16)]⟩)],
          woken := [], held := [] } ["A", "B"]).queue = [("B", ⟨2, [("cpu", 16)]⟩)]
    ∧ (admissionPass
        { available := [("cpu", 16)], unallocated := [("cpu", 16)],
          queue := [("A", ⟨1, [("cpu", 16)]⟩), ("B", ⟨2, [("cpu", 16)]⟩)],
          woken := [], held := [] } ["B", "A"]).woken = [2]
    ∧ (admissionPass
        { available := [("cpu", 16)], unallocated := [("cpu", 16)],
          queue := [("A", ⟨1, [("cpu", 16)]⟩), ("B", ⟨2, [("cpu", 16)]⟩)],
          woken := [], held := [] } ["B", "A"]).queue = [("A", ⟨1, [("cpu", 16)]⟩)]
    ∧ (stepEvent
        (admissionPass
          { available := [("cpu", 16)], unallocated := [("cpu", 16)],
            queue := [("A", ⟨1, [("cpu", 16)]⟩), ("B", ⟨2, [("cpu", 16)]⟩)],
            woken := [], held := [] } ["A", "B"])
        (Event.release [("cpu", 16)]) ["B"]).woken = [2, 1]
    ∧ (stepEvent
        (admissionPass
          { available := [("cpu", 16)], unallocated := [("cpu", 16)],
            queue := [("A", ⟨1, [("cpu", 16)]⟩), ("B", ⟨2, [("cpu", 16)]⟩)],
            woken := [], held := [] } ["A", "B"])
        (Event.release [("cpu", 16)]) ["B"]).queue = [] := by decide

/-! ### Queue and demand lemmas -/

theorem lookupQ_mem (q : List (String × queueItem)) (n : String) (it : queueItem)
    (h : lookupQ q n = some it) : (n, it) ∈ q := by
  induction q with
  | nil => cases h
  | cons p rest ih =>
      cases p with
      | mk m jt =>
          by_cases hp : m = n
          · subst hp
            simp only [lookupQ, if_pos rfl] at h
            cases h
            exact List.mem_cons_self _ _
          · simp only [lookupQ, hp, if_false, if_neg hp] at h
            exact List.mem_cons_of_mem _ (ih h)

theorem mem_removeQ (q : List (String × queueItem)) (n : String)
    (p : String × queueItem) (h : p ∈ removeQ q n) : p ∈ q := by
  induction q with
  | nil => cases h
  | cons r rest ih =>
      simp only [removeQ] at h
      by_cases hr : r.1 = n
      · rw [if_pos hr] at h
        exact List.mem_cons_of_mem _ (ih h)
      · rw [if_neg hr] at h
        rcases List.mem_cons.mp h with h1 | h2
        · exact h1 ▸ List.mem_cons_self _ _
        · exact List.mem_cons_of_mem _ (ih h2)

theorem dsum_eq_zero_of_not_mem (d : ResourceSet) (k : String)
    (h : k ∉ keysRS d) : dsum d k = 0 := by
  induction d with
  | nil => rfl
  | cons p rest ih =>
      have hpk : ¬ p.1 = k := fun hp => h ((mem_keysRS_cons p rest k).mpr (Or.inl hp))
      have hr : k ∉ keysRS rest := fun hr => h ((mem_keysRS_cons p rest k).mpr (Or.inr hr))
      rw [dsum_cons, if_neg hpk, ih hr, zero_add]

theorem dsum_eq_of_nodup (d : ResourceSet) (k : String) (v : Int)
    (hnd : (keysRS d).Nodup) (h : (k, v) ∈ d) : dsum d k = v := by
  induction d with
  | nil => cases h
  | cons p rest ih =>
      simp only [keysRS, List.map_cons] at hnd
      obtain ⟨hp, hnd'⟩ := List.nodup_cons.mp hnd
      rcases List.mem_cons.mp h with h1 | h2
      · obtain rfl : p = (k, v) := h1.symm
        have hz : dsum rest k = 0 := by
          refine dsum_eq_zero_of_not_mem rest k ?_
          simpa [keysRS] using hp
        rw [dsum_cons, hz, add_zero]
        simp
      · have hkr : k ∈ keysRS rest := by
          simpa [keysRS] using List.mem_map_of_mem Prod.fst h2
        have hpk : ¬ p.1 = k := by
          intro hpk
          apply hp
          rw [hpk]
          simpa [keysRS] using hkr
        rw [dsum_cons, if_neg hpk, zero_add]
        exact ih (by simpa [keysRS] using hnd') h2

theorem demandsOK_mem (q : List (String × queueItem)) (p : String × queueItem)
    (hq : demandsOK q = true) (hp : p ∈ q) :
    (keysRS p.2.required).Nodup ∧ ∀ e ∈ p.2.required, 0 ≤ e.2 := by
  rw [demandsOK, List.all_eq_true] at hq
  have := hq p hp
  simp only [Bool.and_eq_true, decide_eq_true_eq, List.all_eq_true] at this
  exact ⟨this.1, fun e he => by simpa using this.2 e he⟩

theorem demandsOK_removeQ (q : List (String × queueItem)) (n : String)
    (hq : demandsOK q = true) : demandsOK (removeQ q n) = true := by
  rw [demandsOK, List.all_eq_true] at hq ⊢
  exact fun p hp => hq p (mem_removeQ q n p hp)

theorem passStep_demandsOK (s : CoordState) (n : String)
    (hq : demandsOK s.queue = true) : demandsOK (passStep s n).queue = true := by
  unfold passStep
  cases lookupQ s.queue n with
  | none => exact hq
  | some it =>
      by_cases hf : fits s.unallocated it.required
      · simpa [hf] using demandsOK_removeQ s.queue n hq
      · simpa [hf] using hq

theorem passStep_nonneg (s : CoordState) (n : String) (k : String)
    (hq : demandsOK s.queue = true) (hk : 0 ≤ get0 s.unallocated k) :
    0 ≤ get0 (passStep s n).unallocated k := by
  unfold passStep
  cases hl : lookupQ s.queue n with
  | none => exact hk
  | some it =>
      by_cases hf : fits s.unallocated it.required
      · simp only [hf, if_pos, get0_subRS]
        obtain ⟨hnd, hnn⟩ := demandsOK_mem s.queue (n, it) hq (lookupQ_mem s.queue n it hl)
        by_cases hmem : k ∈ keysRS it.required
        · obtain ⟨v, hv⟩ : ∃ v, ((k, v) : String × Int) ∈ it.required := by
            simpa [keysRS] using hmem
          have hds : dsum it.required k = v := dsum_eq_of_nodup _ _ _ hnd hv
          have hfit : v ≤ get0 s.unallocated k := by
            simpa using (fits_iff _ _).mp hf (k, v) hv
          rw [hds]
          omega
        · rw [dsum_eq_zero_of_not_mem _ _ hmem]
          omega
      · simpa [hf] using hk

/-- C5: an admission pass over any queue whose demands are Go maps with
non-negative quantities never drives a non-negative `unallocated[type]`
negative: every committed grant is guarded by the fit check against the
very state it is subtracted from. -/
theorem pass_no_overallocation (s : CoordState) (order : List String) (k : String)
    (hq : demandsOK s.queue = true) (hk : 0 ≤ get0 s.unallocated k) :
    0 ≤ get0 (admissionPass s order).unallocated k := by
  induction order generalizing s with
  | nil => exact hk
  | cons n rest ih =>
      exact ih (passStep s n) (passStep_demandsOK s n hq) (passStep_nonneg s n k hq hk)

theorem pass_no_overallocation_witness :
    0 ≤ get0 (admissionPass
        { available := [("cpu", 16)], unallocated := [("cpu", 16)],
          queue := [("A", ⟨1, [("cpu", 10)]⟩), ("B", ⟨2, [("cpu", 10)]⟩)],
          woken := [], held := [] } ["A", "B"]).unallocated "cpu" :=
  pass_no_overallocation
    { available := [("cpu", 16)], unallocated := [("cpu", 16)],
      queue := [("A", ⟨1, [("cpu", 10)]⟩), ("B", ⟨2, [("cpu", 10)]⟩)],
      woken := [], held := [] } ["A", "B"] "cpu" (by decide) (by decide)

/-- C6: the admission pass evaluates every entry of the pending set: an
entry whose demand does not fit leaves the state untouched and does not
stop the scan (dropping it from the order changes nothing), and a single
release event can grant several pending requests within the same pass —
in `multiGrantState`, releasing `{cpu:16}` grants both `B` and `C` in one
pass while the unfit `Z`, scanned first, stays pending without blocking
them. -/
theorem pass_scans_entire_queue (s : CoordState) (n : String) (it : queueItem)
    (order : List String)
    (hl : lookupQ s.queue n = some it)
    (hf : fits s.unallocated it.required = false) :
    (passStep s n = s
      ∧ admissionPass s (n :: order) = admissionPass s order)
    ∧ ((stepEvent multiGrantState (Event.release [("cpu", 16)])
          ["Z", "B", "C"]).woken = [3, 2]
      ∧ (stepEvent multiGrantState (Event.release [("cpu", 16)])
          ["Z", "B", "C"]).queue = [("Z", ⟨9, [("cpu", 32)]⟩)]) := by
  have hs : passStep s n = s := by
    unfold passStep
    rw [hl]
    simp [hf]
  refine ⟨⟨hs, ?_⟩, by decide, by decide⟩
  simp only [admissionPass, List.foldl_cons, hs]

theorem pass_scans_entire_queue_witness :
    (passStep
        { available := [("cpu", 16)], unallocated := [("cpu", 0)],
          queue := [("N", ⟨4, [("cpu", 8)]⟩)], woken := [], held := [] } "N"
      = { available := [("cpu", 16)], unallocated := [("cpu", 0)],
          queue := [("N", ⟨4, [("cpu", 8)]⟩)], woken := [], held := [] }
      ∧ admissionPass
          { available := [("cpu", 16)], unallocated := [("cpu", 0)],
            queue := [("N", ⟨4, [("cpu", 8)]⟩)], woken := [], held := [] } ["N"]
        = admissionPass
            { available := [("cpu", 16)], unallocated := [("cpu", 0)],
              queue := [("N", ⟨4, [("cpu", 8)]⟩)], woken := [], held := [] } [])
    ∧ ((stepEvent multiGrantState (Event.release [("cpu", 16)])
          ["Z", "B", "C"]).woken = [3, 2]
      ∧ (stepEvent multiGrantState (Event.release [("cpu", 16)])
          ["Z", "B", "C"]).queue = [("Z", ⟨9, [("cpu", 32)]⟩)]) :=
  pass_scans_entire_queue
    { available := [("cpu", 16)], unallocated := [("cpu", 0)],
      queue := [("N", ⟨4, [("cpu", 8)]⟩)], woken := [], held := [] }
    "N" ⟨4, [("cpu", 8)]⟩ [] (by decide) (by decide)

/-! ### Traversal lemmas for the admission pass -/

theorem mem_keysQ_of_mem (q : List (String × queueItem)) (p : String × queueItem)
    (hp : p ∈ q) : p.1 ∈ keysQ q :=
  List.mem_map_of_mem Prod.fst hp

theorem exists_of_mem_keysQ (q : List (String × queueItem)) (n : String)
    (h : n ∈ keysQ q) : ∃ p ∈ q, p.1 = n :=
  List.mem_map.mp h

theorem mem_tokensQ_of_mem (q : List (String × queueItem)) (p : String × queueItem)
    (hp : p ∈ q) : p.2.wait ∈ tokensQ q :=
  List.mem_map_of_mem _ hp

theorem exists_of_mem_tokensQ (q : List (String × queueItem)) (t : Nat)
    (h : t ∈ tokensQ q) : ∃ p ∈ q, p.2.wait = t :=
  List.mem_map.mp h

theorem passStep_queue_cases (s : CoordState) (m : String) :
    (passStep s m).queue = s.queue ∨ (passStep s m).queue = removeQ s.queue m := by
  unfold passStep
  cases lookupQ s.queue m with
  | none => exact Or.inl rfl
  | some it =>
      by_cases hf : fits s.unallocated it.required
      · right
        simp [hf]
      · left
        simp [hf]

theorem passStep_woken_cases (s : CoordState) (m : String) :
    (passStep s m).woken = s.woken
      ∨ ∃ it, lookupQ s.queue m = some it
          ∧ (passStep s m).woken = it.wait :: s.woken := by
  unfold passStep
  cases hl : lookupQ s.queue m with
  | none => exact Or.inl rfl
  | some it =>
      by_cases hf : fits s.unallocated it.required
      · exact Or.inr ⟨it, rfl, by simp [hf]⟩
      · exact Or.inl (by simp [hf])

theorem lookupQ_removeQ_ne (q : List (String × queueItem)) (m n : String)
    (h : ¬ m = n) : lookupQ (removeQ q m) n = lookupQ q n := by
  induction q with
  | nil => rfl
  | cons p rest ih =>
      simp only [removeQ]
      by_cases hp : p.1 = m
      · rw [if_pos hp]
        have hpn : ¬ p.1 = n := by
          rw [hp]
          exact h
        rw [ih]
        simp only [lookupQ, if_neg hpn]
      · rw [if_neg hp]
        simp only [lookupQ]
        by_cases hn : p.1 = n
        · rw [if_pos hn, if_pos hn]
        · rw [if_neg hn, if_neg hn]
          exact ih

theorem keysQ_removeQ (q : List (String × queueItem)) (n : String) :
    n ∉ keysQ (removeQ q n) := by
  induction q with
  | nil => simp [removeQ, keysQ]
  | cons p rest ih =>
      simp only [removeQ]
      by_cases hp : p.1 = n
      · rw [if_pos hp]
        exact ih
      · rw [if_neg hp]
        simp only [keysQ, List.map_cons, List.mem_cons]
        rintro (h | h)
        · exact hp h.symm
        · exact ih (by simpa [keysQ] using h)

theorem passStep_keysQ_subset (s : CoordState) (m n : String)
    (h : n ∈ keysQ (passStep s m).queue) : n ∈ keysQ s.queue := by
  rcases passStep_queue_cases s m with hq | hq
  · rwa [hq] at h
  · rw [hq] at h
    obtain ⟨p, hp, hpn⟩ := exists_of_mem_keysQ _ _ h
    exact hpn ▸ mem_keysQ_of_mem _ p (mem_removeQ _ _ _ hp)

theorem passStep_woken_mono (s : CoordState) (m : String) (w : Nat)
    (h : w ∈ s.woken) : w ∈ (passStep s m).woken := by
  rcases passStep_woken_cases s m with hw | ⟨it, _, hw⟩
  · rwa [hw]
  · rw [hw]
    exact List.mem_cons_of_mem _ h

theorem lookupQ_passStep_ne (s : CoordState) (m n : String) (h : ¬ m = n) :
    lookupQ (passStep s m).queue n = lookupQ s.queue n := by
  rcases passStep_queue_cases s m with hq | hq
  · rw [hq]
  · rw [hq, lookupQ_removeQ_ne _ _ _ h]

theorem admissionPass_keysQ_subset (order : List String) :
    ∀ (s : CoordState) (n : String),
      n ∈ keysQ (admissionPass s order).queue → n ∈ keysQ s.queue := by
  induction order with
  | nil => intro s n h; exact h
  | cons m rest ih =>
      intro s n h
      exact passStep_keysQ_subset s m n (ih (passStep s m) n h)

theorem admissionPass_woken_mono (order : List String) :
    ∀ (s : CoordState) (w : Nat),
      w ∈ s.woken → w ∈ (admissionPass s order).woken := by
  induction order with
  | nil => intro s w h; exact h
  | cons m rest ih =>
      intro s w h
      exact ih (passStep s m) w (passStep_woken_mono s m w h)

theorem pass_grants_empty_demand (order : List String) :
    ∀ (s : CoordState) (n : String) (it : queueItem),
      lookupQ s.queue n = some it → it.required = [] → n ∈ order →
      n ∉ keysQ (admissionPass s order).queue
        ∧ it.wait ∈ (admissionPass s order).woken := by
  induction order with
  | nil => intro s n it _ _ h; cases h
  | cons m rest ih =>
      intro s n it hl hreq hmem
      by_cases hmn : m = n
      · subst hmn
        have hfit : fits s.unallocated it.required = true := by
          rw [hreq]
          rfl
        have hstep : passStep s m
            = { s with unallocated := subRS s.unallocated it.required,
                       queue := removeQ s.queue m,
                       woken := it.wait :: s.woken,
                       held := it.required :: s.held } := by
          unfold passStep
          rw [hl]
          simp [hfit]
        constructor
        · intro hmem2
          have h2 := admissionPass_keysQ_subset rest (passStep s m) m hmem2
          rw [hstep] at h2
          exact keysQ_removeQ s.queue m h2
        · exact admissionPass_woken_mono rest (passStep s m) it.wait
            (by rw [hstep]; exact List.mem_cons_self _ _)
      · have hl' : lookupQ (passStep s m).queue n = some it := by
          rw [lookupQ_passStep_ne s m n hmn]
          exact hl
        have hmem' : n ∈ rest := by
          rcases List.mem_cons.mp hmem with h | h
          · exact absurd h.symm hmn
          · exact h
        exact ih (passStep s m) n it hl' hreq hmem'

/-- C8: a request whose demand is the empty resource set is never skipped
by `Parallel` (the feasibility loop is vacuous) whatever the total is, and
once enqueued it is granted by the first admission pass whose scan reaches
it, however little unallocated capacity remains (the fit check is
vacuous), leaving `unallocated` unchanged by that grant. -/
theorem empty_demand_always_granted (avail : ResourceSet) (name : String)
    (wait : Nat) (s : CoordState) (it : queueItem) (order : List String)
    (hl : lookupQ s.queue name = some it) (hreq : it.required = [])
    (hmem : name ∈ order) :
    Parallel avail name wait [] = some (Event.enqueue name ⟨wait, []⟩)
    ∧ passStep s name
        = { s with queue := removeQ s.queue name,
                   woken := it.wait :: s.woken,
                   held := [] :: s.held }
    ∧ name ∉ keysQ (admissionPass s order).queue
    ∧ it.wait ∈ (admissionPass s order).woken := by
  have hfit : fits s.unallocated it.required = true := by
    rw [hreq]
    rfl
  have hp := pass_grants_empty_demand order s name it hl hreq hmem
  refine ⟨rfl, ?_, hp.1, hp.2⟩
  unfold passStep
  rw [hl]
  simp only [hfit, if_true]
  rw [hreq]
  simp [subRS]

theorem empty_demand_always_granted_witness :
    Parallel [("cpu", 16)] "E" 4 [] = some (Event.enqueue "E" ⟨4, []⟩)
    ∧ passStep
        { available := [("cpu", 16)], unallocated := [("cpu", 0)],
          queue := [("E", ⟨4, []⟩)], woken := [], held := [] } "E"
      = { available := [("cpu", 16)], unallocated := [("cpu", 0)],
          queue := removeQ [("E", ⟨4, []⟩)] "E", woken := [4], held := [[]] }
    ∧ "E" ∉ keysQ (admissionPass
        { available := [("cpu", 16)], unallocated := [("cpu", 0)],
          queue := [("E", ⟨4, []⟩)], woken := [], held := [] } ["E"]).queue
    ∧ 4 ∈ (admissionPass
        { available := [("cpu", 16)], unallocated := [("cpu", 0)],
          queue := [("E", ⟨4, []⟩)], woken := [], held := [] } ["E"]).woken :=
  empty_demand_always_granted [("cpu", 16)] "E" 4
    { available := [("cpu", 16)], unallocated := [("cpu", 0)],
      queue := [("E", ⟨4, []⟩)], woken := [], held := [] }
    ⟨4, []⟩ ["E"] (by decide) rfl (by decide)

/-! ### Wake-token safety -/

theorem tokensQ_removeQ_subset (q : List (String × queueItem)) (n : String)
    (t : Nat) (h : t ∈ tokensQ (removeQ q n)) : t ∈ tokensQ q := by
  obtain ⟨p, hp, hpt⟩ := exists_of_mem_tokensQ _ _ h
  exact hpt ▸ mem_tokensQ_of_mem _ p (mem_removeQ _ _ _ hp)

theorem passStep_token (s : CoordState) (m : String) (t : Nat)
    (h1 : t ∉ tokensQ s.queue) (h2 : t ∉ s.woken) :
    t ∉ tokensQ (passStep s m).queue ∧ t ∉ (passStep s m).woken := by
  constructor
  · intro hc
    rcases passStep_queue_cases s m with hq | hq
    · rw [hq] at hc
      exact h1 hc
    · rw [hq] at hc
      exact h1 (tokensQ_removeQ_subset _ _ _ hc)
  · intro hc
    rcases passStep_woken_cases s m with hw | ⟨it, hl, hw⟩
    · rw [hw] at hc
      exact h2 hc
    · rw [hw] at hc
      rcases List.mem_cons.mp hc with h | h
      · apply h1
        rw [h]
        exact mem_tokensQ_of_mem _ (m, it) (lookupQ_mem _ _ _ hl)
      · exact h2 h

theorem admissionPass_token (order : List String) :
    ∀ (s : CoordState) (t : Nat), t ∉ tokensQ s.queue → t ∉ s.woken →
      t ∉ tokensQ (admissionPass s order).queue
        ∧ t ∉ (admissionPass s order).woken := by
  induction order with
  | nil => intro s t h1 h2; exact ⟨h1, h2⟩
  | cons m rest ih =>
      intro s t h1 h2
      obtain ⟨h1h, h2h⟩ := passStep_token s m t h1 h2
      exact ih (passStep s m) t h1h h2h

theorem mem_insertQ (q : List (String × queueItem)) (n : String) (it : queueItem)
    (p : String × queueItem) (h : p ∈ insertQ q n it) : p = (n, it) ∨ p ∈ q := by
  induction q with
  | nil => left; simpa [insertQ] using h
  | cons r rest ih =>
      simp only [insertQ] at h
      by_cases hr : r.1 = n
      · rw [if_pos hr] at h
        rcases List.mem_cons.mp h with h | h
        · exact Or.inl h
        · exact Or.inr (List.mem_cons_of_mem _ h)
      · rw [if_neg hr] at h
        rcases List.mem_cons.mp h with h | h
        · exact Or.inr (h ▸ List.mem_cons_self _ _)
        · rcases ih h with h | h
          · exact Or.inl h
          · exact Or.inr (List.mem_cons_of_mem _ h)

theorem mem_insertQ_nodup (q : List (String × queueItem)) (n : String)
    (it : queueItem) (hnd : (keysQ q).Nodup) (p : String × queueItem)
    (h : p ∈ insertQ q n it) : p = (n, it) ∨ (p ∈ q ∧ ¬ p.1 = n) := by
  induction q with
  | nil => left; simpa [insertQ] using h
  | cons r rest ih =>
      simp only [keysQ, List.map_cons] at hnd
      obtain ⟨hr1, hnd1⟩ := List.nodup_cons.mp hnd
      simp only [insertQ] at h
      by_cases hr : r.1 = n
      · rw [if_pos hr] at h
        rcases List.mem_cons.mp h with h | h
        · exact Or.inl h
        · right
          refine ⟨List.mem_cons_of_mem _ h, ?_⟩
          intro hpn
          have hm : p.1 ∈ List.map Prod.fst rest := List.mem_map_of_mem Prod.fst h
          rw [hpn, ← hr] at hm
          exact hr1 hm
      · rw [if_neg hr] at h
        rcases List.mem_cons.mp h with h | h
        · right
          exact ⟨h ▸ List.mem_cons_self _ _, by rw [h]; exact hr⟩
        · rcases ih (by simpa [keysQ] using hnd1) h with h | ⟨hm, hn⟩
          · exact Or.inl h
          · exact Or.inr ⟨List.mem_cons_of_mem _ hm, hn⟩

theorem lookupQ_insertQ_self (q : List (String × queueItem)) (n : String)
    (it : queueItem) : lookupQ (insertQ q n it) n = some it := by
  induction q with
  | nil => simp [insertQ, lookupQ]
  | cons r rest ih =>
      simp only [insertQ]
      by_cases hr : r.1 = n
      · rw [if_pos hr]
        simp [lookupQ]
      · rw [if_neg hr]
        simp only [lookupQ, if_neg hr]
        exact ih

theorem handleEvent_token (s : CoordState) (e : Event) (t : Nat)
    (h1 : t ∉ tokensQ s.queue) (h2 : t ∉ s.woken)
    (he : ∀ m jt, e = Event.enqueue m jt → ¬ jt.wait = t) :
    t ∉ tokensQ (handleEvent s e).queue ∧ t ∉ (handleEvent s e).woken := by
  cases e with
  | enqueue m jt =>
      refine ⟨?_, h2⟩
      intro hc
      obtain ⟨p, hp, hpt⟩ := exists_of_mem_tokensQ _ _ hc
      rcases mem_insertQ s.queue m jt p hp with rfl | hmem
      · exact he m jt rfl hpt
      · exact h1 (hpt ▸ mem_tokensQ_of_mem _ p hmem)
  | release a => exact ⟨h1, h2⟩

theorem run_token (tr : List (Event × List String)) :
    ∀ (s : CoordState) (t : Nat), t ∉ tokensQ s.queue → t ∉ s.woken →
      trAvoids t tr = true →
      t ∉ tokensQ (run s tr).queue ∧ t ∉ (run s tr).woken := by
  induction tr with
  | nil => intro s t h1 h2 _; exact ⟨h1, h2⟩
  | cons pr rest ih =>
      intro s t h1 h2 htr
      simp only [trAvoids, List.all_cons, Bool.and_eq_true] at htr
      have he : ∀ m jt, pr.1 = Event.enqueue m jt → ¬ jt.wait = t := by
        intro m jt hpr
        have h := htr.1
        rw [hpr] at h
        simpa using h
      obtain ⟨ha1, ha2⟩ := handleEvent_token s pr.1 t h1 h2 he
      obtain ⟨hb1, hb2⟩ := admissionPass_token pr.2 (handleEvent s pr.1) t ha1 ha2
      exact ih (stepEvent s pr.1 pr.2) t hb1 hb2 htr.2

/-- C9: an enqueue event whose identity is already present in the wait
queue replaces the prior entry, and because an admission pass only ever
closes the wake channel of a queue-resident item, the replaced entry's
wake channel is never closed by the pass that follows the replacement nor
by any later event-plus-pass cycle whose enqueue events carry fresh
tokens: the earlier waiter on that identity is never woken. -/
theorem replaced_waiter_never_woken
    (s : CoordState) (n : String) (old new : queueItem)
    (order : List String) (tr : List (Event × List String))
    (hnd : (keysQ s.queue).Nodup)
    (_hq : (n, old) ∈ s.queue)
    (hU : ∀ p ∈ s.queue, p.2.wait = old.wait → p = (n, old))
    (hw : old.wait ∉ s.woken)
    (hnew : ¬ new.wait = old.wait)
    (htr : trAvoids old.wait tr = true) :
    lookupQ (handleEvent s (Event.enqueue n new)).queue n = some new
    ∧ old.wait ∉ (run (stepEvent s (Event.enqueue n new) order) tr).woken
    ∧ old.wait ∉ tokensQ (run (stepEvent s (Event.enqueue n new) order) tr).queue := by
  have hout : old.wait ∉ tokensQ (insertQ s.queue n new) := by
    intro hc
    obtain ⟨p, hp, hpt⟩ := exists_of_mem_tokensQ _ _ hc
    rcases mem_insertQ_nodup s.queue n new hnd p hp with rfl | ⟨hm, hn1⟩
    · exact hnew hpt
    · exact hn1 (by rw [hU p hm hpt])
  obtain ⟨hb1, hb2⟩ := admissionPass_token order (handleEvent s (Event.enqueue n new))
    old.wait hout hw
  obtain ⟨hc1, hc2⟩ := run_token tr (stepEvent s (Event.enqueue n new) order)
    old.wait hb1 hb2 htr
  exact ⟨lookupQ_insertQ_self s.queue n new, hc2, hc1⟩

theorem replaced_waiter_never_woken_witness :
    lookupQ (handleEvent
        { available := [("cpu", 16)], unallocated := [("cpu", 16)],
          queue := [("T", ⟨1, [("cpu", 4)]⟩)], woken := [], held := [] }
        (Event.enqueue "T" ⟨2, [("cpu", 4)]⟩)).queue "T" = some ⟨2, [("cpu", 4)]⟩
    ∧ 1 ∉ (run (stepEvent
        { available := [("cpu", 16)], unallocated := [("cpu", 16)],
          queue := [("T", ⟨1, [("cpu", 4)]⟩)], woken := [], held := [] }
        (Event.enqueue "T" ⟨2, [("cpu", 4)]⟩) ["T"])
        [(Event.release [("cpu", 4)], ["T"])]).woken
    ∧ 1 ∉ tokensQ (run (stepEvent
        { available := [("cpu", 16)], unallocated := [("cpu", 16)],
          queue := [("T", ⟨1, [("cpu", 4)]⟩)], woken := [], held := [] }
        (Event.enqueue "T" ⟨2, [("cpu", 4)]⟩) ["T"])
        [(Event.release [("cpu", 4)], ["T"])]).queue :=
  replaced_waiter_never_woken
    { available := [("cpu", 16)], unallocated := [("cpu", 16)],
      queue := [("T", ⟨1, [("cpu", 4)]⟩)], woken := [], held := [] }
    "T" ⟨1, [("cpu", 4)]⟩ ⟨2, [("cpu", 4)]⟩ ["T"]
    [(Event.release [("cpu", 4)], ["T"])]
    (by decide) (by decide) (by decide) (by decide) (by decide) (by decide)

end SmTest
